import Mathlib

/-!
Verification of the DC-EGM solver core (dc-egm repository) against its
specification.  The Python sources are shallowly embedded over exact rational
arithmetic: numpy arrays become lists of rationals, NaN sentinels become
`Option` values (with IEEE semantics: any comparison against NaN is false),
and user callbacks (utility, marginal utility, exp, log) become function
parameters.  Each embedded definition mirrors one function of the sources,
named after it.
-/

namespace DCEGM

/-! ### EGM step (src/dcegm/egm.py) -/

/-- Dot product of two equal-length vectors, modelling `@` on 1d arrays. -/
def dot (xs ys : List ℚ) : ℚ := (List.zipWith (fun a b => a * b) xs ys).sum

/-- Embeds `solve_euler_equation` (egm.py): integrate marginal utilities and
expected maxima over the exogenous process with the transition probabilities,
form the right-hand side of the Euler equation and invert the marginal
utility.  Returns `(policy, expected_value)`. -/
def solveEulerEquation (margUtils emax transitionProbs : List ℚ)
    (invMargUtil : ℚ → ℚ) (beta interestRate : ℚ) : ℚ × ℚ :=
  let marginalUtility := dot transitionProbs margUtils
  let expectedValue := dot transitionProbs emax
  let rhsEuler := marginalUtility * (1 + interestRate) * beta
  (invMargUtil rhsEuler, expectedValue)

/-- Embeds `compute_optimal_policy_and_value` (egm.py) for one savings-grid
point: solve the Euler equation, set the endogenous wealth point to
savings + consumption, and evaluate the value function.  Returns
`(endog_grid, policy, value, expected_value)`. -/
def computeOptimalPolicyAndValue (margUtils emax : List ℚ) (savingsPoint : ℚ)
    (transitionProbs : List ℚ) (invMargUtil : ℚ → ℚ)
    (computeValue : ℚ → ℚ → ℚ) (beta interestRate : ℚ) : ℚ × ℚ × ℚ × ℚ :=
  let pe := solveEulerEquation margUtils emax transitionProbs invMargUtil beta interestRate
  let endogGrid := savingsPoint + pe.1
  let value := computeValue pe.1 pe.2
  (endogGrid, pe.1, value, pe.2)

/-- Spec-side formula for EGM consumption: the claim states
policy(a) = inverse_marginal_utility(beta * (1 + r) * mu(a)) with mu(a) the
transition-probability-weighted sum of child marginal utilities. -/
def eulerPolicySpec (margUtils transitionProbs : List ℚ)
    (invMargUtil : ℚ → ℚ) (beta interestRate : ℚ) : ℚ :=
  invMargUtil (beta * (1 + interestRate) * dot transitionProbs margUtils)

/-! ### Final-period draw index (src/dcegm/final_period.py) -/

/-- Embeds `middle_of_draws = int(value.shape[2] + 1 / 2)` from
`solve_final_period`: Python evaluates `1 / 2` to the float one half, adds the
integer shape and truncates.  For a nonnegative argument truncation is the
floor. -/
def middleOfDraws (n : ℕ) : ℤ := Int.floor ((n : ℚ) + 1 / 2)

/-! ### Batch-size determination (src/dcegm/pre_processing/batches.py) -/

/-- Observable effects of running the batching code; `breakpointHit` marks the
execution of the `breakpoint()` statement in `determine_optimal_batch_size`. -/
inductive BatchEffect where
  | breakpointHit : BatchEffect
  | printEffect : BatchEffect
deriving DecidableEq, Repr

/-- Embeds the statement sequence of `determine_optimal_batch_size` up to its
first suspension point, together with the pure data computed before it: the
state choices of all but the last two periods (rows whose first entry, the
period, is below `n_periods - 2`), their backward index range, and the
corresponding child-state rows.  The fourth statement of the source is an
unconditional `breakpoint()`; the effect trace therefore starts with
`breakpointHit`. -/
def determineOptimalBatchSize (stateChoiceSpace : List (List ℤ))
    (nPeriods : ℕ) (mapStateChoiceToChildStates : List (List ℤ)) :
    List BatchEffect × (List (List ℤ) × List ℕ × List (List ℤ)) :=
  let woLastTwo := stateChoiceSpace.filter
    (fun row => row.headD 0 < (nPeriods : ℤ) - 2)
  let stateChoiceIndexBack := List.range woLastTwo.length
  let childStatesIdxBackward :=
    (List.zip stateChoiceSpace mapStateChoiceToChildStates).filterMap
      (fun rc => if rc.1.headD 0 < (nPeriods : ℤ) - 2 then some rc.2 else none)
  ([BatchEffect.breakpointHit],
   (woLastTwo, stateChoiceIndexBack, childStatesIdxBackward))

/-- Embeds the dispatch of `create_batches_and_information`: a two-period
model returns early with the last-two-period information only; any longer
model calls `determine_optimal_batch_size`.  Only the effect trace is kept. -/
def createBatchesEffects (stateChoiceSpace : List (List ℤ)) (nPeriods : ℕ)
    (mapStateChoiceToChildStates : List (List ℤ)) : List BatchEffect :=
  if nPeriods = 2 then []
  else (determineOptimalBatchSize stateChoiceSpace nPeriods
    mapStateChoiceToChildStates).1

/-! ### State-space construction
(src/dcegm/pre_processing/model_structure/state_space.py) -/

/-- Enumeration order of candidate states in `create_state_space`: period,
then endogenous-state combination, then lagged choice, then exogenous state.
A state vector is period, lagged choice, endogenous values, exogenous
values. -/
def enumerateStates (nPeriods nEndogStates nChoices : ℕ)
    (endogStateOf : ℕ → List ℤ) (exogStateSpace : List (List ℤ)) :
    List (List ℤ) :=
  (List.range nPeriods).flatMap fun period =>
    (List.range nEndogStates).flatMap fun endogStateId =>
      (List.range nChoices).flatMap fun laggedChoice =>
        exogStateSpace.map fun exogStates =>
          (period : ℤ) :: (laggedChoice : ℤ) :: (endogStateOf endogStateId ++ exogStates)

/-- Embeds the loop body of `create_state_space` over the enumerated states.
For each state: if the proxy map sends it elsewhere, a valid state raises the
fatal configuration `ValueError` (modelled by `Except.error`) and an invalid
one is recorded in the proxied-from / proxied-to lists; otherwise valid states
are appended to the state-space list and invalid ones are skipped.  The source
currently wires `dummy_func_proxy` (the identity) into the proxy slot; the
branch structure is embedded over an arbitrary proxy map. -/
def createStateSpaceLoop (valid : List ℤ → Bool) (proxy : List ℤ → List ℤ) :
    List (List ℤ) → Except Unit (List (List ℤ) × List (List ℤ) × List (List ℤ))
  | [] => Except.ok ([], [], [])
  | s :: rest =>
    if proxy s ≠ s then
      if valid s then Except.error ()
      else
        match createStateSpaceLoop valid proxy rest with
        | Except.error e => Except.error e
        | Except.ok (sp, pfrom, pto) => Except.ok (sp, s :: pfrom, proxy s :: pto)
    else
      if valid s then
        match createStateSpaceLoop valid proxy rest with
        | Except.error e => Except.error e
        | Except.ok (sp, pfrom, pto) => Except.ok (s :: sp, pfrom, pto)
      else createStateSpaceLoop valid proxy rest

/-- Embeds `create_state_space`: run the enumeration loop over all candidate
states. -/
def createStateSpace (nPeriods nEndogStates nChoices : ℕ)
    (endogStateOf : ℕ → List ℤ) (exogStateSpace : List (List ℤ))
    (valid : List ℤ → Bool) (proxy : List ℤ → List ℤ) :
    Except Unit (List (List ℤ) × List (List ℤ) × List (List ℤ)) :=
  createStateSpaceLoop valid proxy
    (enumerateStates nPeriods nEndogStates nChoices endogStateOf exogStateSpace)

/-! ### Fast Upper-Envelope Scan (src/dcegm/fast_upper_envelope.py)

The scan works on three parallel float arrays.  The embedding keeps the input
arrays as lists of rationals (indexed with a junk default, all source reads
being in bounds) and the refined output arrays as lists of `Option ℚ`, where
`none` models the NaN sentinel.  Gradients produced by the forward and
backward scans are `Option ℚ`: `none` models a non-finite float (the source
divides by differences of grid points without a guard; on the inputs used in
the concrete theorems below every such division is either well defined or of
the form 0/0, which IEEE arithmetic turns into NaN, and every comparison with
NaN is false). -/

/-- The numerical guard 1e-16 used by the scan. -/
def scanEps : ℚ := 1 / 10 ^ 16

/-- Embeds `np.abs` on scalars. -/
def absQ (q : ℚ) : ℚ := if q < 0 then -q else q

/-- Input data of `scan_value_function`: the three sorted arrays, the implied
exogenous savings `endog - policy`, the jump threshold and the number of
points to scan. -/
structure ScanInput where
  endog : List ℚ
  value : List ℚ
  policy : List ℚ
  exog : List ℚ
  jumpThresh : ℚ
  nScan : ℕ

/-- Read of `endog_grid[i]`. -/
def ScanInput.x (inp : ScanInput) (i : ℕ) : ℚ := inp.endog.getD i 0

/-- Read of `value[i]`. -/
def ScanInput.v (inp : ScanInput) (i : ℕ) : ℚ := inp.value.getD i 0

/-- Read of `policy[i]`. -/
def ScanInput.p (inp : ScanInput) (i : ℕ) : ℚ := inp.policy.getD i 0

/-- Read of `exog_grid[i]`. -/
def ScanInput.e (inp : ScanInput) (i : ℕ) : ℚ := inp.exog.getD i 0

/-- Comparison `a < b` where `b` may be NaN: false against NaN. -/
def nanLtR (a : ℚ) (b : Option ℚ) : Bool :=
  match b with
  | none => false
  | some q => decide (a < q)

/-- Comparison `a < b` where `a` may be NaN: false against NaN. -/
def nanLtL (a : Option ℚ) (b : ℚ) : Bool :=
  match a with
  | none => false
  | some q => decide (q < b)

/-- State of the loop inside `_forward_scan`. -/
structure FwdState where
  grad : Option ℚ
  idxOnSame : ℕ
  isNextOnSame : Bool

/-- One iteration of the loop in `_forward_scan`, checking index `idx`.  The
0/1 integer algebra of the source is rendered with booleans; the unguarded
gradient division poisons the accumulator (NaN) when its denominator is
zero. -/
def fwdStep (inp : ScanInput) (xj ej : ℚ) (idxNext idx : ℕ)
    (st : FwdState) : FwdState :=
  if xj < inp.x idx then
    let isOnSame : Bool := decide (absQ ((ej - inp.e idx) / (xj - inp.x idx)) < inp.jumpThresh)
    let isNext : Bool := isOnSame && !st.isNextOnSame
    let idxOnSame := if isNext then idx else st.idxOnSame
    let grad : Option ℚ :=
      if inp.x idxNext - inp.x idx = 0 then none
      else match st.grad with
        | none => none
        | some g =>
          if isNext then some ((inp.v idxNext - inp.v idx) / (inp.x idxNext - inp.x idx))
          else some g
    { grad := grad, idxOnSame := idxOnSame,
      isNextOnSame := st.isNextOnSame || isOnSame }
  else st

/-- Embeds `_forward_scan`: look ahead `n_points_to_scan` indices (clamped to
the last index) for the first point on the same savings branch as the point
`j` and return the gradient between point `idx_next` and that point, together
with its index. -/
def forwardScan (inp : ScanInput) (xj ej : ℚ) (idxNext : ℕ) : Option ℚ × ℕ :=
  let idxMax := inp.exog.length - 1
  let final := (List.range' 1 inp.nScan).foldl
    (fun st i => fwdStep inp xj ej idxNext (min (idxNext + i) idxMax) st)
    { grad := some 0, idxOnSame := 0, isNextOnSame := false }
  (final.grad, final.idxOnSame)

/-- State of the loop inside `_backward_scan`. -/
structure BwdState where
  grad : Option ℚ
  subIdx : ℕ
  isBefore : Bool

/-- One iteration of the loop in `_backward_scan`, checking the ring-buffer
entry `idx` sitting at position `pos` of the buffer.  The same-branch test
divides by `endog[idx_next] - endog[idx]` without a guard; a zero denominator
makes the test NaN (hence false).  The gradient division itself is guarded by
the branch condition. -/
def bwdStep (inp : ScanInput) (xj vj : ℚ) (idxNext : ℕ) (pos idx : ℕ)
    (st : BwdState) : BwdState :=
  if inp.x idx < xj then
    if inp.x idxNext - inp.x idx = 0 then
      { grad := st.grad, subIdx := st.subIdx, isBefore := st.isBefore }
    else
      let isOnSame : Bool :=
        decide (absQ ((inp.e idxNext - inp.e idx) / (inp.x idxNext - inp.x idx)) < inp.jumpThresh)
      let isB : Bool := isOnSame && !st.isBefore
      let subIdx := if isB then pos else st.subIdx
      let grad : Option ℚ :=
        match st.grad with
        | none => none
        | some g => if isB then some ((vj - inp.v idx) / (xj - inp.x idx)) else some g
      { grad := grad, subIdx := subIdx, isBefore := st.isBefore || isOnSame }
  else st

/-- Embeds `_backward_scan`: walk the ring buffer of suboptimal indices from
newest to oldest looking for the first point on the same branch as the
candidate `idx_next`; return the gradient between `j` and that point and the
buffer position of that point. -/
def backwardScan (inp : ScanInput) (subopt : List ℕ) (xj vj : ℚ)
    (idxNext : ℕ) : Option ℚ × ℕ :=
  let final := (subopt.reverse.enum).foldl
    (fun st q => bwdStep inp xj vj idxNext (subopt.length - 1 - q.1) q.2 st)
    { grad := some 0, subIdx := 0, isBefore := false }
  (final.grad, final.subIdx)

/-- Embeds `_evaluate_point_on_line`. -/
def evaluatePointOnLine (x1 y1 x2 y2 pt : ℚ) : ℚ :=
  (y2 - y1) / (x2 - x1) * (pt - x1) + y1

/-- Embeds `_linear_intersection` of the segments (x1,y1)-(x2,y2) and
(x3,y3)-(x4,y4). -/
def linearIntersection (x1 y1 x2 y2 x3 y3 x4 y4 : ℚ) : ℚ × ℚ :=
  let slope1 := (y2 - y1) / (x2 - x1)
  let slope2 := (y4 - y3) / (x4 - x3)
  let xInter := (slope1 * x1 - slope2 * x3 + y3 - y1) / (slope1 - slope2)
  (xInter, slope1 * (xInter - x1) + y1)

/-- Which branch of the scan decision rule fired at an iteration. -/
inductive Branch where
  | discard : Branch
  | accept : Branch
  | kinkA : Branch
  | kinkB : Branch
  | noop : Branch
deriving DecidableEq, Repr

/-- Full state threaded through the scan loop: the three refined output
arrays, the output cursor `idx_refined`, the tracked points `j` and `k`, the
ring buffer of suboptimal indices, the log of scalar write indices, and the
branch trace. -/
structure ScanState where
  vRef : List (Option ℚ)
  pRef : List (Option ℚ)
  xRef : List (Option ℚ)
  idxRefined : ℕ
  vj : ℚ
  xj : ℚ
  pj : ℚ
  ej : ℚ
  vk : ℚ
  xk : ℚ
  pk : ℚ
  ek : ℚ
  subopt : List ℕ
  writes : List ℕ
  trace : List Branch

/-- Write a (value, policy, endog) triple at the output cursor and advance it;
an out-of-range index leaves the arrays unchanged (the log still records the
attempted index, which in numpy would raise). -/
def emit (st : ScanState) (v p x : ℚ) : ScanState :=
  { st with
    vRef := st.vRef.set st.idxRefined (some v)
    pRef := st.pRef.set st.idxRefined (some p)
    xRef := st.xRef.set st.idxRefined (some x)
    writes := st.writes ++ [st.idxRefined]
    idxRefined := st.idxRefined + 1 }

/-- Overwrite the most recently emitted triple (cursor minus one) without
advancing the cursor; used by the upper-branch-continuing kink case. -/
def overwritePrev (st : ScanState) (v p x : ℚ) : ScanState :=
  { st with
    vRef := st.vRef.set (st.idxRefined - 1) (some v)
    pRef := st.pRef.set (st.idxRefined - 1) (some p)
    xRef := st.xRef.set (st.idxRefined - 1) (some x)
    writes := st.writes ++ [st.idxRefined - 1] }

/-- Advance the points `j` and `k` after accepting the candidate `i+1`. -/
def advanceJK (st : ScanState) (v p x : ℚ) : ScanState :=
  { st with
    vk := st.vj, xk := st.xj, pk := st.pj, ek := st.ej
    vj := v, xj := x, pj := p, ej := x - p }

/-- One iteration of the main loop of `scan_value_function` at loop index `i`
(the candidate point is `i+1`), mirroring the four-way decision rule of the
source: discard, monotone accept, kink with the upper branch ending, kink
with the upper branch continuing; when no branch fires (exact gradient ties)
the iteration does nothing. -/
def scanStep (inp : ScanInput) (i : ℕ) (st : ScanState) : ScanState :=
  let xNext := inp.x (i + 1)
  let vNext := inp.v (i + 1)
  let pNext := inp.p (i + 1)
  let eNext := inp.e (i + 1)
  let gradBefore := (st.vj - st.vk) / max (st.xj - st.xk) scanEps
  let gradNext := (vNext - st.vj) / max (xNext - st.xj) scanEps
  let switch : Bool := decide (absQ ((eNext - st.ej) / max (xNext - st.xj) scanEps) > inp.jumpThresh)
  let fwd := forwardScan inp st.xj st.ej (i + 1)
  let bwd := backwardScan inp st.subopt st.xj st.vj (i + 1)
  let idxUpper := st.subopt.getD bwd.2 0
  if vNext < st.vj ∨ eNext < st.ej ∨ (nanLtR gradNext fwd.1 = true ∧ switch = true) then
    { st with subopt := st.subopt.drop 1 ++ [i + 1], trace := st.trace ++ [Branch.discard] }
  else if switch = false then
    let st1 := advanceJK (emit st vNext pNext xNext) vNext pNext xNext
    { st1 with trace := st1.trace ++ [Branch.accept] }
  else if gradBefore > gradNext ∨ nanLtR gradNext bwd.1 = true then
    let inter := linearIntersection (inp.x fwd.2) (inp.v fwd.2) st.xj st.vj
      xNext vNext (inp.x idxUpper) (inp.v idxUpper)
    let policyLeft := evaluatePointOnLine (inp.x fwd.2) (inp.p fwd.2) st.xj st.pj inter.1
    let policyRight := evaluatePointOnLine xNext pNext (inp.x idxUpper) (inp.p idxUpper) inter.1
    let st1 := emit (emit (emit st inter.2 policyLeft inter.1) inter.2 policyRight inter.1)
      vNext pNext xNext
    let st2 := advanceJK st1 vNext pNext xNext
    { st2 with trace := st2.trace ++ [Branch.kinkA] }
  else if nanLtL bwd.1 gradNext = true then
    let inter := linearIntersection st.xj st.vj st.xk st.vk
      xNext vNext (inp.x idxUpper) (inp.v idxUpper)
    let policyLeft := evaluatePointOnLine st.xk st.pk st.xj st.pj inter.1
    let policyRight := evaluatePointOnLine xNext pNext (inp.x idxUpper) (inp.p idxUpper) inter.1
    let st1 := emit (emit (overwritePrev st inter.2 policyLeft inter.1) inter.2 policyRight inter.1)
      vNext pNext xNext
    { st1 with
      vj := inter.2, xj := inter.1, pj := policyRight, ej := inter.1 - policyRight
      trace := st1.trace ++ [Branch.kinkB] }
  else
    { st with trace := st.trace ++ [Branch.noop] }

/-- Embeds `_initialize_refined_arrays` for one array: NaN everywhere, the
first two entries copied from the input. -/
def initRefined (l : List ℚ) : List (Option ℚ) :=
  (l.take 2).map some ++ (l.drop 2).map (fun _ => none)

/-- Initial scan state: `j` is the input point 1, `k` the input point 0, the
output cursor is 2 and the ring buffer holds `n_points_to_scan` zeros. -/
def scanInit (inp : ScanInput) : ScanState :=
  { vRef := initRefined inp.value
    pRef := initRefined inp.policy
    xRef := initRefined inp.endog
    idxRefined := 2
    vj := inp.v 1, xj := inp.x 1, pj := inp.p 1, ej := inp.x 1 - inp.p 1
    vk := inp.v 0, xk := inp.x 0, pk := inp.p 0, ek := inp.x 0 - inp.p 0
    subopt := List.replicate inp.nScan 0
    writes := []
    trace := [] }

/-- The main loop of `scan_value_function` over the given loop indices. -/
def scanLoop (inp : ScanInput) (idxs : List ℕ) (st : ScanState) : ScanState :=
  idxs.foldl (fun s i => scanStep inp i s) st

/-- The unconditional final write of the last input point at the output
cursor, closing `scan_value_function`. -/
def scanFinal (inp : ScanInput) (st : ScanState) : ScanState :=
  emit st (inp.v (inp.value.length - 1)) (inp.p (inp.policy.length - 1))
    (inp.x (inp.endog.length - 1))

/-- Embeds `scan_value_function`: loop index `i` ranges over
`range(1, len(endog_grid) - 2)`. -/
def scanValueFunction (endog value policy : List ℚ) (jumpThresh : ℚ)
    (nScan : ℕ) : ScanState :=
  let inp : ScanInput :=
    { endog := endog, value := value, policy := policy
      exog := List.zipWith (fun a b => a - b) endog policy
      jumpThresh := jumpThresh, nScan := nScan }
  scanFinal inp (scanLoop inp (List.range' 1 (endog.length - 3)) (scanInit inp))

/-- Stable ascending sort of the zipped (endog, value, policy) triples by the
endogenous grid, modelling `np.argsort(endog_grid, kind="mergesort")` followed
by `np.take` on all three arrays (a stable sort is extensionally unique). -/
def stableSortByX (l : List (ℚ × ℚ × ℚ)) : List (ℚ × ℚ × ℚ) :=
  List.insertionSort (fun a b => a.1 ≤ b.1) l

/-- Embeds `fast_upper_envelope` (with the default `jump_thresh=2` and the
`n_points_to_scan=10` used at its call site): stable-sort the three arrays by
the endogenous grid, then scan. -/
def fastUpperEnvelope (endog value policy : List ℚ) : ScanState :=
  let sorted := stableSortByX (List.zip endog (List.zip value policy))
  scanValueFunction (sorted.map (fun t => t.1)) (sorted.map (fun t => t.2.1))
    (sorted.map (fun t => t.2.2)) 2 10

/-- The valid (non-NaN) entries of a refined output array, in order. -/
def refinedValues (l : List (Option ℚ)) : List ℚ := l.filterMap id

/-! ### Structural lemmas about the scan -/

theorem isSome_getElemOpt {α : Type} (l : List α) (m : ℕ) :
    l[m]?.isSome ↔ m < l.length := by
  rw [Option.isSome_iff_ne_none, Ne, List.getElem?_eq_none_iff]
  omega

/-- A refined array of length `n` whose valid (non-NaN) entries are exactly
the positions below the cursor. -/
def RefArrayInv (n idxr : ℕ) (l : List (Option ℚ)) : Prop :=
  l.length = n ∧ ∀ m, m < n → ((l.getD m none).isSome ↔ m < idxr)

/-- The invariant maintained by the scan loop: the cursor is at least 2 and
each refined array is valid exactly below the cursor. -/
def ScanStateInv (n : ℕ) (st : ScanState) : Prop :=
  2 ≤ st.idxRefined ∧ RefArrayInv n st.idxRefined st.vRef ∧
    RefArrayInv n st.idxRefined st.pRef ∧ RefArrayInv n st.idxRefined st.xRef

theorem refArrayInv_set {n idxr : ℕ} {l : List (Option ℚ)}
    (h : RefArrayInv n idxr l) (v : ℚ) :
    RefArrayInv n (idxr + 1) (l.set idxr (some v)) := by
  obtain ⟨hlen, hval⟩ := h
  refine ⟨by simpa using hlen, fun m hm => ?_⟩
  rw [List.getD_eq_getElem?_getD]
  by_cases heq : m = idxr
  · subst heq
    rw [List.getElem?_set_eq_of_lt _ (hlen ▸ hm)]
    simp
  · rw [List.getElem?_set_ne (fun he => heq he.symm)]
    rw [← List.getD_eq_getElem?_getD, hval m hm]
    omega

theorem refArrayInv_set_lt {n idxr k : ℕ} {l : List (Option ℚ)}
    (h : RefArrayInv n idxr l) (hk : k < idxr) (v : ℚ) :
    RefArrayInv n idxr (l.set k (some v)) := by
  obtain ⟨hlen, hval⟩ := h
  refine ⟨by simpa using hlen, fun m hm => ?_⟩
  rw [List.getD_eq_getElem?_getD]
  by_cases heq : m = k
  · subst heq
    rw [List.getElem?_set_eq_of_lt _ (hlen ▸ hm)]
    simp
    omega
  · rw [List.getElem?_set_ne (fun he => heq he.symm)]
    rw [← List.getD_eq_getElem?_getD]
    exact hval m hm

theorem scanStateInv_emit {n : ℕ} {st : ScanState} (h : ScanStateInv n st)
    (v p x : ℚ) : ScanStateInv n (emit st v p x) := by
  obtain ⟨h2, hv, hp, hx⟩ := h
  refine ⟨?_, refArrayInv_set hv v, refArrayInv_set hp p, refArrayInv_set hx x⟩
  simp only [emit]
  omega

theorem scanStateInv_overwritePrev {n : ℕ} {st : ScanState}
    (h : ScanStateInv n st) (v p x : ℚ) :
    ScanStateInv n (overwritePrev st v p x) := by
  obtain ⟨h2, hv, hp, hx⟩ := h
  have hk : st.idxRefined - 1 < st.idxRefined := by omega
  exact ⟨h2, refArrayInv_set_lt hv hk v, refArrayInv_set_lt hp hk p,
    refArrayInv_set_lt hx hk x⟩

theorem scanStateInv_advanceJK {n : ℕ} {st : ScanState}
    (h : ScanStateInv n st) (v p x : ℚ) :
    ScanStateInv n (advanceJK st v p x) := h

theorem scanStateInv_scanStep {n : ℕ} (inp : ScanInput) (i : ℕ)
    {st : ScanState} (h : ScanStateInv n st) :
    ScanStateInv n (scanStep inp i st) := by
  simp only [scanStep]
  split_ifs
  · exact h
  · exact scanStateInv_advanceJK
      (scanStateInv_emit h (inp.v (i + 1)) (inp.p (i + 1)) (inp.x (i + 1)))
      (inp.v (i + 1)) (inp.p (i + 1)) (inp.x (i + 1))
  · exact scanStateInv_emit (scanStateInv_emit (scanStateInv_emit h _ _ _) _ _ _)
      (inp.v (i + 1)) (inp.p (i + 1)) (inp.x (i + 1))
  · exact scanStateInv_emit (scanStateInv_emit (scanStateInv_overwritePrev h _ _ _) _ _ _)
      (inp.v (i + 1)) (inp.p (i + 1)) (inp.x (i + 1))
  · exact h

theorem scanStateInv_scanLoop {n : ℕ} (inp : ScanInput) (idxs : List ℕ)
    {st : ScanState} (h : ScanStateInv n st) :
    ScanStateInv n (scanLoop inp idxs st) := by
  induction idxs generalizing st with
  | nil => exact h
  | cons i rest ih => exact ih (scanStateInv_scanStep inp i h)

theorem initRefined_length (l : List ℚ) : (initRefined l).length = l.length := by
  simp [initRefined]
  omega

theorem refArrayInv_initRefined (l : List ℚ) :
    RefArrayInv l.length 2 (initRefined l) := by
  refine ⟨initRefined_length l, fun m hm => ?_⟩
  unfold initRefined
  rw [List.getD_eq_getElem?_getD]
  rcases lt_or_le m 2 with hlt | hle
  · rw [List.getElem?_append_left (by simp; omega)]
    rw [List.getElem?_map, List.getElem?_take_of_lt hlt]
    rw [List.getElem?_eq_getElem hm]
    simp [hlt]
  · rw [List.getElem?_append_right (by simp; omega)]
    rw [List.getElem?_map, List.getElem?_drop]
    have hlen2 : ((l.take 2).map some).length = 2 := by simp; omega
    rw [hlen2]
    rw [List.getElem?_eq_getElem (by omega : 2 + (m - 2) < l.length)]
    simp
    omega

theorem scanStateInv_scanInit (inp : ScanInput)
    (hv : inp.value.length = inp.endog.length)
    (hp : inp.policy.length = inp.endog.length) :
    ScanStateInv inp.endog.length (scanInit inp) := by
  refine ⟨le_refl 2, ?_, ?_, ?_⟩
  · exact hv ▸ refArrayInv_initRefined inp.value
  · exact hp ▸ refArrayInv_initRefined inp.policy
  · exact refArrayInv_initRefined inp.endog

/-- Contiguity of the scan output: each refined array has the input length
and its valid entries are exactly the positions below the final cursor — the
invalid entries always form a contiguous NaN suffix. -/
theorem scanValueFunction_contiguous (endog value policy : List ℚ)
    (jumpThresh : ℚ) (nScan : ℕ)
    (hv : value.length = endog.length) (hp : policy.length = endog.length) :
    ScanStateInv endog.length (scanValueFunction endog value policy jumpThresh nScan) := by
  unfold scanValueFunction
  exact scanStateInv_emit (scanStateInv_scanLoop _ _ (scanStateInv_scanInit _ hv hp)) _ _ _

/-! ### Branch traces of the scan -/

/-- The state update of the monotone-accept branch of the scan. -/
def acceptUpdate (inp : ScanInput) (i : ℕ) (st : ScanState) : ScanState :=
  let st1 := advanceJK (emit st (inp.v (i + 1)) (inp.p (i + 1)) (inp.x (i + 1)))
    (inp.v (i + 1)) (inp.p (i + 1)) (inp.x (i + 1))
  { st1 with trace := st1.trace ++ [Branch.accept] }

theorem scanStep_trace (inp : ScanInput) (i : ℕ) (st : ScanState) :
    ∃ b, (scanStep inp i st).trace = st.trace ++ [b] := by
  simp only [scanStep]
  split_ifs
  · exact ⟨Branch.discard, rfl⟩
  · exact ⟨Branch.accept, rfl⟩
  · exact ⟨Branch.kinkA, rfl⟩
  · exact ⟨Branch.kinkB, rfl⟩
  · exact ⟨Branch.noop, rfl⟩

theorem scanLoop_trace_ext (inp : ScanInput) (idxs : List ℕ) (st : ScanState) :
    ∃ ext, (scanLoop inp idxs st).trace = st.trace ++ ext := by
  induction idxs generalizing st with
  | nil => exact ⟨[], by simp [scanLoop]⟩
  | cons i rest ih =>
    obtain ⟨b, hb⟩ := scanStep_trace inp i st
    obtain ⟨ext, hext⟩ := ih (scanStep inp i st)
    exact ⟨b :: ext, by simp [scanLoop] at hext ⊢; rw [hext, hb]; simp⟩

theorem scanStep_of_discard (inp : ScanInput) (i : ℕ) (st : ScanState)
    (h : (scanStep inp i st).trace = st.trace ++ [Branch.discard]) :
    scanStep inp i st =
      { st with subopt := st.subopt.drop 1 ++ [i + 1],
                trace := st.trace ++ [Branch.discard] } := by
  simp only [scanStep] at h ⊢
  split_ifs at h ⊢
  all_goals first
    | rfl
    | (exfalso
       simp only [emit, advanceJK, overwritePrev] at h
       have h2 := List.append_cancel_left h
       simp at h2)

theorem scanStep_of_accept (inp : ScanInput) (i : ℕ) (st : ScanState)
    (h : (scanStep inp i st).trace = st.trace ++ [Branch.accept]) :
    scanStep inp i st = acceptUpdate inp i st := by
  simp only [scanStep, acceptUpdate] at h ⊢
  split_ifs at h ⊢
  all_goals first
    | rfl
    | (exfalso
       simp only [emit, advanceJK, overwritePrev] at h
       have h2 := List.append_cancel_left h
       simp at h2)

theorem scanStep_of_noop (inp : ScanInput) (i : ℕ) (st : ScanState)
    (h : (scanStep inp i st).trace = st.trace ++ [Branch.noop]) :
    scanStep inp i st = { st with trace := st.trace ++ [Branch.noop] } := by
  simp only [scanStep] at h ⊢
  split_ifs at h ⊢
  all_goals first
    | rfl
    | (exfalso
       simp only [emit, advanceJK, overwritePrev] at h
       have h2 := List.append_cancel_left h
       simp at h2)

/-! ### Accept-only runs copy the input -/

/-- The refined array that holds the first `k` input entries and NaN
beyond. -/
def refinedSeg (l : List ℚ) (k : ℕ) : List (Option ℚ) :=
  (l.take k).map some ++ (l.drop k).map (fun _ => none)

theorem initRefined_eq_refinedSeg (l : List ℚ) : initRefined l = refinedSeg l 2 := rfl

theorem refinedSeg_set (l : List ℚ) (k : ℕ) (hk : k < l.length) :
    (refinedSeg l k).set k (some (l.getD k 0)) = refinedSeg l (k + 1) := by
  induction l generalizing k with
  | nil => simp at hk
  | cons a t ih =>
    cases k with
    | zero => simp [refinedSeg]
    | succ k =>
      have hk' : k < t.length := by simpa using hk
      have h1 : refinedSeg (a :: t) (k + 1) = some a :: refinedSeg t k := by
        simp [refinedSeg]
      have h2 : refinedSeg (a :: t) (k + 2) = some a :: refinedSeg t (k + 1) := by
        simp [refinedSeg]
      rw [h1, h2, List.set_cons_succ]
      rw [show (a :: t).getD (k + 1) 0 = t.getD k 0 by simp [List.getD]]
      rw [ih k hk']

theorem refinedSeg_full (l : List ℚ) : refinedSeg l l.length = l.map some := by
  simp [refinedSeg]

/-- Invariant of an accept-only run: before processing loop index `i`, the
cursor is `i + 1`, the point `j` is the input point `i`, and the refined
arrays hold exactly the first `i + 1` input entries. -/
def AcceptRun (inp : ScanInput) (i : ℕ) (st : ScanState) : Prop :=
  st.idxRefined = i + 1 ∧
  st.vj = inp.v i ∧ st.xj = inp.x i ∧ st.pj = inp.p i ∧
  st.ej = inp.x i - inp.p i ∧
  st.vRef = refinedSeg inp.value (i + 1) ∧
  st.pRef = refinedSeg inp.policy (i + 1) ∧
  st.xRef = refinedSeg inp.endog (i + 1)

theorem acceptRun_scanInit (inp : ScanInput) : AcceptRun inp 1 (scanInit inp) :=
  ⟨rfl, rfl, rfl, rfl, rfl, rfl, rfl, rfl⟩

theorem acceptRun_acceptUpdate (inp : ScanInput) (i : ℕ) (st : ScanState)
    (h : AcceptRun inp i st)
    (hvlen : i + 1 < inp.value.length) (hplen : i + 1 < inp.policy.length)
    (hxlen : i + 1 < inp.endog.length) :
    AcceptRun inp (i + 1) (acceptUpdate inp i st) := by
  obtain ⟨hidx, hvj, hxj, hpj, hej, hvr, hpr, hxr⟩ := h
  refine ⟨?_, rfl, rfl, rfl, rfl, ?_, ?_, ?_⟩
  · simp [acceptUpdate, advanceJK, emit, hidx]
  · show (st.vRef.set st.idxRefined (some (inp.v (i + 1)))) = _
    rw [hvr, hidx, ScanInput.v, refinedSeg_set inp.value (i + 1) hvlen]
  · show (st.pRef.set st.idxRefined (some (inp.p (i + 1)))) = _
    rw [hpr, hidx, ScanInput.p, refinedSeg_set inp.policy (i + 1) hplen]
  · show (st.xRef.set st.idxRefined (some (inp.x (i + 1)))) = _
    rw [hxr, hidx, ScanInput.x, refinedSeg_set inp.endog (i + 1) hxlen]

theorem acceptRun_scanLoop (inp : ScanInput)
    (hv : inp.value.length = inp.endog.length)
    (hp : inp.policy.length = inp.endog.length) :
    ∀ (k i : ℕ) (st : ScanState), AcceptRun inp i st →
      i + k + 1 ≤ inp.endog.length →
      (∀ b ∈ (scanLoop inp (List.range' i k) st).trace, b = Branch.accept) →
      AcceptRun inp (i + k) (scanLoop inp (List.range' i k) st) := by
  intro k
  induction k with
  | zero => intro i st h _ _; simpa [scanLoop] using h
  | succ k ih =>
    intro i st h hbound htr
    rw [List.range'_succ] at htr ⊢
    have hloop : scanLoop inp (i :: List.range' (i + 1) k) st =
        scanLoop inp (List.range' (i + 1) k) (scanStep inp i st) := rfl
    obtain ⟨b, hb⟩ := scanStep_trace inp i st
    obtain ⟨ext, hext⟩ := scanLoop_trace_ext inp (List.range' (i + 1) k) (scanStep inp i st)
    have hbmem : b ∈ (scanLoop inp (i :: List.range' (i + 1) k) st).trace := by
      rw [hloop, hext, hb]
      simp
    have hbacc : b = Branch.accept := htr b hbmem
    rw [hbacc] at hb
    have hstep := scanStep_of_accept inp i st hb
    have hnext : AcceptRun inp (i + 1) (scanStep inp i st) := by
      rw [hstep]
      exact acceptRun_acceptUpdate inp i st h (by omega) (by omega) (by omega)
    have := ih (i + 1) (scanStep inp i st) hnext (by omega) (by rw [← hloop]; exact htr)
    rw [hloop]
    have harith : i + 1 + k = i + (k + 1) := by omega
    rw [harith] at this
    exact this

/-- An accept-only scan run copies the input: if every branch taken by the
main loop is the monotone accept branch, the refined arrays equal the input
arrays (every entry valid) and the cursor ends at the input length. -/
theorem scanValueFunction_acceptOnly (endog value policy : List ℚ)
    (jumpThresh : ℚ) (nScan : ℕ) (hn : 3 ≤ endog.length)
    (hv : value.length = endog.length) (hp : policy.length = endog.length)
    (htr : ∀ b ∈ (scanValueFunction endog value policy jumpThresh nScan).trace,
      b = Branch.accept) :
    (scanValueFunction endog value policy jumpThresh nScan).vRef = value.map some ∧
    (scanValueFunction endog value policy jumpThresh nScan).pRef = policy.map some ∧
    (scanValueFunction endog value policy jumpThresh nScan).xRef = endog.map some ∧
    (scanValueFunction endog value policy jumpThresh nScan).idxRefined = endog.length := by
  simp only [scanValueFunction] at htr ⊢
  set inp : ScanInput :=
    { endog := endog, value := value, policy := policy
      exog := List.zipWith (fun a b => a - b) endog policy
      jumpThresh := jumpThresh, nScan := nScan } with hinp
  set stL := scanLoop inp (List.range' 1 (endog.length - 3)) (scanInit inp) with hstL
  have hloopTrace : ∀ b ∈ stL.trace, b = Branch.accept := fun b hb => htr b hb
  have hrun := acceptRun_scanLoop inp hv hp (endog.length - 3) 1 (scanInit inp)
    (acceptRun_scanInit inp) (by show 1 + (endog.length - 3) + 1 ≤ endog.length; omega)
    hloopTrace
  rw [← hstL] at hrun
  obtain ⟨hidx, _, _, _, _, hvr, hpr, hxr⟩ := hrun
  have hidx' : stL.idxRefined = endog.length - 1 := by rw [hidx]; omega
  have harith : 1 + (endog.length - 3) + 1 = endog.length - 1 := by omega
  refine ⟨?_, ?_, ?_, ?_⟩
  · show stL.vRef.set stL.idxRefined (some (inp.v (inp.value.length - 1))) = value.map some
    rw [hvr, harith, hidx']
    show (refinedSeg value (endog.length - 1)).set (endog.length - 1)
      (some (value.getD (value.length - 1) 0)) = value.map some
    rw [show value.length - 1 = endog.length - 1 from by omega]
    rw [refinedSeg_set value (endog.length - 1) (by omega)]
    rw [show endog.length - 1 + 1 = value.length from by omega]
    exact refinedSeg_full value
  · show stL.pRef.set stL.idxRefined (some (inp.p (inp.policy.length - 1))) = policy.map some
    rw [hpr, harith, hidx']
    show (refinedSeg policy (endog.length - 1)).set (endog.length - 1)
      (some (policy.getD (policy.length - 1) 0)) = policy.map some
    rw [show policy.length - 1 = endog.length - 1 from by omega]
    rw [refinedSeg_set policy (endog.length - 1) (by omega)]
    rw [show endog.length - 1 + 1 = policy.length from by omega]
    exact refinedSeg_full policy
  · show stL.xRef.set stL.idxRefined (some (inp.x (inp.endog.length - 1))) = endog.map some
    rw [hxr, harith, hidx']
    show (refinedSeg endog (endog.length - 1)).set (endog.length - 1)
      (some (endog.getD (endog.length - 1) 0)) = endog.map some
    rw [refinedSeg_set endog (endog.length - 1) (by omega)]
    rw [show endog.length - 1 + 1 = endog.length from by omega]
    exact refinedSeg_full endog
  · show stL.idxRefined + 1 = endog.length
    omega

/-! ### Write bounds of kink-free runs -/

theorem acceptUpdate_writes (inp : ScanInput) (i : ℕ) (st : ScanState) :
    (acceptUpdate inp i st).writes = st.writes ++ [st.idxRefined] := rfl

theorem acceptUpdate_idxRefined (inp : ScanInput) (i : ℕ) (st : ScanState) :
    (acceptUpdate inp i st).idxRefined = st.idxRefined + 1 := rfl

theorem writes_scanLoop_noKink (inp : ScanInput) (n : ℕ) :
    ∀ (k i : ℕ) (st : ScanState),
      st.idxRefined ≤ i + 1 →
      (∀ w ∈ st.writes, w < n) →
      i + k + 2 ≤ n →
      (∀ b ∈ (scanLoop inp (List.range' i k) st).trace,
        b = Branch.discard ∨ b = Branch.accept ∨ b = Branch.noop) →
      (scanLoop inp (List.range' i k) st).idxRefined ≤ i + k + 1 ∧
        ∀ w ∈ (scanLoop inp (List.range' i k) st).writes, w < n := by
  intro k
  induction k with
  | zero => intro i st hidx hw _ _; exact ⟨by simpa [scanLoop] using hidx,
      by simpa [scanLoop] using hw⟩
  | succ k ih =>
    intro i st hidx hw hbound htr
    rw [List.range'_succ] at htr ⊢
    have hloop : scanLoop inp (i :: List.range' (i + 1) k) st =
        scanLoop inp (List.range' (i + 1) k) (scanStep inp i st) := rfl
    obtain ⟨b, hb⟩ := scanStep_trace inp i st
    obtain ⟨ext, hext⟩ := scanLoop_trace_ext inp (List.range' (i + 1) k) (scanStep inp i st)
    have hbmem : b ∈ (scanLoop inp (i :: List.range' (i + 1) k) st).trace := by
      rw [hloop, hext, hb]
      simp
    have hbdan := htr b hbmem
    have hnext : (scanStep inp i st).idxRefined ≤ i + 2 ∧
        ∀ w ∈ (scanStep inp i st).writes, w < n := by
      rcases hbdan with hbd | hba | hbn
      · rw [hbd] at hb
        rw [scanStep_of_discard inp i st hb]
        exact ⟨by simpa using by omega, hw⟩
      · rw [hba] at hb
        rw [scanStep_of_accept inp i st hb]
        rw [acceptUpdate_writes]
        refine ⟨by rw [acceptUpdate_idxRefined]; omega, fun w hwmem => ?_⟩
        rcases List.mem_append.mp hwmem with hmem | hmem
        · exact hw w hmem
        · simp at hmem
          omega
      · rw [hbn] at hb
        rw [scanStep_of_noop inp i st hb]
        exact ⟨by simpa using by omega, hw⟩
    have := ih (i + 1) (scanStep inp i st) hnext.1 hnext.2 (by omega)
      (by rw [← hloop]; exact htr)
    rw [hloop]
    exact ⟨by have := this.1; omega, this.2⟩

/-- In a run of the scan whose main loop never takes a kink-insertion branch,
every scalar write lands strictly inside the arrays. -/
theorem scanValueFunction_writes_noKink (endog value policy : List ℚ)
    (jumpThresh : ℚ) (nScan : ℕ) (hn : 3 ≤ endog.length)
    (htr : ∀ b ∈ (scanValueFunction endog value policy jumpThresh nScan).trace,
      b ≠ Branch.kinkA ∧ b ≠ Branch.kinkB) :
    ∀ w ∈ (scanValueFunction endog value policy jumpThresh nScan).writes,
      w < endog.length := by
  simp only [scanValueFunction] at htr ⊢
  set inp : ScanInput :=
    { endog := endog, value := value, policy := policy
      exog := List.zipWith (fun a b => a - b) endog policy
      jumpThresh := jumpThresh, nScan := nScan } with hinp
  set stL := scanLoop inp (List.range' 1 (endog.length - 3)) (scanInit inp) with hstL
  have htr3 : ∀ b ∈ stL.trace,
      b = Branch.discard ∨ b = Branch.accept ∨ b = Branch.noop := by
    intro b hb
    have hb2 := htr b hb
    cases b
    · exact Or.inl rfl
    · exact Or.inr (Or.inl rfl)
    · exact absurd rfl hb2.1
    · exact absurd rfl hb2.2
    · exact Or.inr (Or.inr rfl)
  have hrun := writes_scanLoop_noKink inp endog.length (endog.length - 3) 1 (scanInit inp)
    (le_refl 2) (by intro w hw; simp [scanInit] at hw)
    (by show 1 + (endog.length - 3) + 2 ≤ endog.length; omega) htr3
  rw [← hstL] at hrun
  intro w hw
  have hfin : (scanFinal inp stL).writes = stL.writes ++ [stL.idxRefined] := rfl
  rw [hfin] at hw
  rcases List.mem_append.mp hw with hmem | hmem
  · exact hrun.2 w hmem
  · simp at hmem
    subst hmem
    have := hrun.1
    omega

/-! ### The stable sort on already-ordered input -/

theorem pairwise_fst_zip {l1 : List ℚ} (l2 : List (ℚ × ℚ))
    (h : List.Pairwise (fun a b : ℚ => a ≤ b) l1) :
    List.Pairwise (fun a b : ℚ × ℚ × ℚ => a.1 ≤ b.1) (List.zip l1 l2) := by
  induction l1 generalizing l2 with
  | nil => simp
  | cons a t ih =>
    cases l2 with
    | nil => simp
    | cons b u =>
      rw [List.pairwise_cons] at h
      rw [List.zip_cons_cons, List.pairwise_cons]
      refine ⟨fun y hy => ?_, ih u h.2⟩
      exact h.1 y.1 (List.of_mem_zip hy).1

theorem stableSortByX_eq_self {l : List (ℚ × ℚ × ℚ)}
    (h : List.Pairwise (fun a b : ℚ × ℚ × ℚ => a.1 ≤ b.1) l) :
    stableSortByX l = l :=
  List.Sorted.insertionSort_eq h

theorem map_proj_zip3 (l1 : List ℚ) (l2 : List ℚ) (l3 : List ℚ)
    (h2 : l2.length = l1.length) (h3 : l3.length = l1.length) :
    (List.zip l1 (List.zip l2 l3)).map (fun t => t.1) = l1 ∧
    (List.zip l1 (List.zip l2 l3)).map (fun t => t.2.1) = l2 ∧
    (List.zip l1 (List.zip l2 l3)).map (fun t => t.2.2) = l3 := by
  induction l1 generalizing l2 l3 with
  | nil =>
    cases l2 <;> cases l3 <;> simp_all
  | cons a t ih =>
    cases l2 with
    | nil => simp at h2
    | cons b u =>
      cases l3 with
      | nil => simp at h3
      | cons c w =>
        simp only [List.length_cons, Nat.add_right_cancel_iff] at h2 h3
        obtain ⟨g1, g2, g3⟩ := ih u w h2 h3
        simp [g1, g2, g3]

/-- On an input whose endogenous grid is already non-decreasing, the stable
sort inside `fast_upper_envelope` is the identity and the procedure reduces to
the plain scan. -/
theorem fastUpperEnvelope_of_sorted (endog value policy : List ℚ)
    (hv : value.length = endog.length) (hp : policy.length = endog.length)
    (hsorted : List.Pairwise (fun a b : ℚ => a ≤ b) endog) :
    fastUpperEnvelope endog value policy =
      scanValueFunction endog value policy 2 10 := by
  unfold fastUpperEnvelope
  rw [stableSortByX_eq_self (pairwise_fst_zip _ hsorted)]
  obtain ⟨g1, g2, g3⟩ := map_proj_zip3 endog value policy hv hp
  show scanValueFunction _ _ _ 2 10 = _
  rw [g1, g2, g3]

theorem refinedValues_map_some (l : List ℚ) :
    refinedValues (l.map some) = l := by
  rw [refinedValues, List.filterMap_map]
  simp [List.filterMap_some]

/-- On a non-decreasing input whose scan accepts every interior candidate,
FUES returns exactly the input (all entries valid), and re-applying FUES to
the valid entries of that output reproduces the same refined state:
idempotence holds for such runs. -/
theorem fastUpperEnvelope_idem_of_acceptOnly (endog value policy : List ℚ)
    (hn : 3 ≤ endog.length)
    (hv : value.length = endog.length) (hp : policy.length = endog.length)
    (hsorted : List.Pairwise (fun a b : ℚ => a ≤ b) endog)
    (htr : ∀ b ∈ (fastUpperEnvelope endog value policy).trace, b = Branch.accept) :
    refinedValues (fastUpperEnvelope endog value policy).xRef = endog ∧
    refinedValues (fastUpperEnvelope endog value policy).vRef = value ∧
    refinedValues (fastUpperEnvelope endog value policy).pRef = policy ∧
    fastUpperEnvelope
      (refinedValues (fastUpperEnvelope endog value policy).xRef)
      (refinedValues (fastUpperEnvelope endog value policy).vRef)
      (refinedValues (fastUpperEnvelope endog value policy).pRef) =
      fastUpperEnvelope endog value policy := by
  have hfue := fastUpperEnvelope_of_sorted endog value policy hv hp hsorted
  rw [hfue] at htr ⊢
  obtain ⟨hvr, hpr, hxr, _⟩ :=
    scanValueFunction_acceptOnly endog value policy 2 10 hn hv hp htr
  rw [hvr, hpr, hxr]
  rw [refinedValues_map_some, refinedValues_map_some, refinedValues_map_some]
  exact ⟨rfl, rfl, rfl, hfue⟩

/-! ### FUES wrapper pre-processing (src/dcegm/fast_upper_envelope.py) -/

/-- Embeds `np.min` on a nonempty 1d array. -/
def npMin (l : List ℚ) : ℚ :=
  match l with
  | [] => 0
  | a :: t => t.foldl min a

/-- Embeds `np.linspace(start, stop, num)`: `num` evenly spaced points from
`start` to `stop` inclusive. -/
def linspace (start stop : ℚ) (num : ℕ) : List ℚ :=
  if num = 0 then []
  else if num = 1 then [start]
  else (List.range num).map (fun i => start + (stop - start) * i / (num - 1))

/-- Embeds `calc_value_constrained` (toy_models/consumption_retirement_model.py),
the `compute_value` callback used in the credit-constrained region:
utility of consuming all wealth plus the discounted continuation value. -/
def calcValueConstrained (computeUtility : ℚ → ℤ → ℚ) (beta : ℚ)
    (wealth nextPeriodValue : ℚ) (choice : ℤ) : ℚ :=
  computeUtility wealth choice + beta * nextPeriodValue

/-- Embeds `_augment_grids`: the points `linspace(min_wealth, endog[0],
points_to_add)[:-1]` are prepended to the grid, their values computed by the
`compute_value` callback at zero savings, and the policy on them is the grid
point itself (consume everything). -/
def augmentGrids (endog value policy : List ℚ) (choice : ℤ)
    (expectedValueZeroSavings minWealthGrid : ℚ) (pointsToAdd : ℕ)
    (computeValue : ℚ → ℚ → ℤ → ℚ) : List ℚ × List ℚ × List ℚ :=
  let gridPointsToAdd := (linspace minWealthGrid (endog.headD 0) pointsToAdd).dropLast
  (gridPointsToAdd ++ endog,
   (gridPointsToAdd.map (fun g => computeValue g expectedValueZeroSavings choice)) ++ value,
   gridPointsToAdd ++ policy)

/-- The pre-scan arrays assembled by `fast_upper_envelope_wrapper`: augment to
the left when the grid dips below its first point, then prepend the zero-
savings point.  Returns `(endog, policy, value)` in the wrapper order. -/
def fueWrapperPrescan (endog policy value : List ℚ)
    (expectedValueZeroSavings : ℚ) (choice : ℤ)
    (computeValue : ℚ → ℚ → ℤ → ℚ) : List ℚ × List ℚ × List ℚ :=
  if npMin endog < endog.headD 0 then
    let a := augmentGrids endog value policy choice expectedValueZeroSavings
      (npMin endog) (endog.length / 10) computeValue
    (0 :: a.1, 0 :: a.2.2, expectedValueZeroSavings :: a.2.1)
  else (0 :: endog, 0 :: policy, expectedValueZeroSavings :: value)

/-- Embeds `fast_upper_envelope_wrapper`: build the pre-scan arrays and hand
them to `fast_upper_envelope` (stable sort by the grid, then the scan). -/
def fastUpperEnvelopeWrapper (endog policy value : List ℚ)
    (expectedValueZeroSavings : ℚ) (choice : ℤ)
    (computeValue : ℚ → ℚ → ℤ → ℚ) : ScanState :=
  let pre := fueWrapperPrescan endog policy value expectedValueZeroSavings choice computeValue
  fastUpperEnvelope pre.1 pre.2.2 pre.2.1

/-- Spec-side formula for the credit-constrained region: the claim assigns to
an added grid point the value `utility(new_x) + beta * expected_value_zero`. -/
def creditConstrainedValueSpec (computeUtility : ℚ → ℤ → ℚ)
    (beta expectedValueZeroSavings : ℚ) (choice : ℤ) (x : ℚ) : ℚ :=
  computeUtility x choice + beta * expectedValueZeroSavings

/-! ### Aggregation kernel (src/dcegm/egm/aggregate_marginal_utility.py)

The kernel is embedded for a single parent state and a single (savings point,
income-shock draw) column.  The `jnp.take(..., mode="fill", fill_value=nan)`
over the state-choice matrix becomes a Bool feasibility mask turning
infeasible slots into `none`; `jnp.exp` and `jnp.log` become the function
parameters `gexp` and `glog`. -/

/-- NaN-aware maximum of two scalars: a NaN operand is ignored. -/
def maxOpt (a b : Option ℚ) : Option ℚ :=
  match a, b with
  | none, r => r
  | some v, none => some v
  | some v, some w => some (max v w)

/-- Embeds `jnp.nanmax` over a choice axis: NaN entries are ignored; all-NaN
gives NaN. -/
def nanmax : List (Option ℚ) → Option ℚ
  | [] => none
  | o :: rest => maxOpt o (nanmax rest)

/-- Embeds `jnp.nansum` over a choice axis: NaN entries count as zero. -/
def nansum (l : List (Option ℚ)) : ℚ := (l.map (fun o => o.getD 0)).sum

/-- NaN-aware product: NaN times anything is NaN. -/
def mulOpt (a b : Option ℚ) : Option ℚ :=
  match a, b with
  | some x, some y => some (x * y)
  | _, _ => none

/-- NaN-aware difference: NaN minus anything (and anything minus NaN) is
NaN. -/
def subOpt (a b : Option ℚ) : Option ℚ :=
  match a, b with
  | some x, some y => some (x - y)
  | _, _ => none

/-- The fill pattern produced by `jnp.take(..., mode="fill",
fill_value=jnp.nan)` with the reshape matrix: feasible slots keep their value,
infeasible slots are NaN. -/
def maskFeasible (feasible : List Bool) (xs : List ℚ) : List (Option ℚ) :=
  List.zipWith (fun b x => if b then some x else none) feasible xs

/-- Embeds `aggregate_marg_utils_and_exp_values` for one parent state and one
column: rescale the choice values by their nan-maximum, exponentiate the
rescaled values divided by the taste-shock scale, nan-sum them, form the
log-sum, and weight the choice-specific marginal utilities with the implied
choice probabilities.  Returns `(log_sum, marg_util)`. -/
def aggregateMargUtilsAndExpValues (gexp glog : ℚ → ℚ) (tasteShockScale : ℚ)
    (choiceValues choiceMargUtils : List (Option ℚ)) : Option ℚ × ℚ :=
  let maxValue := nanmax choiceValues
  let rescaled := choiceValues.map (fun v? => subOpt v? maxValue)
  let rescaledExponential := rescaled.map (fun v? =>
    v?.map (fun v => gexp (v / tasteShockScale)))
  let sumExp := nansum rescaledExponential
  let logSum := maxValue.map (fun mx => mx + tasteShockScale * glog sumExp)
  let choiceProbs := rescaledExponential.map (fun e? => e?.map (fun e => e / sumExp))
  let weighted := List.zipWith mulOpt choiceProbs choiceMargUtils
  (logSum, nansum weighted)

/-- The values of the feasible choices, in order. -/
def feasibleVals (feasible : List Bool) (xs : List ℚ) : List ℚ :=
  (List.zip feasible xs).filterMap (fun bx => if bx.1 then some bx.2 else none)

/-- Maximum of a list (junk 0 on the empty list; used only on nonempty
lists). -/
def maxList : List ℚ → ℚ
  | [] => 0
  | a :: t => t.foldl max a

/-- Spec-side log-sum: the claim states the expected maximum is
`vbar + lambda * log(S)` with `vbar` the maximum over feasible choices and
`S` the sum over feasible choices of `exp((V_c - vbar) / lambda)`. -/
def logsumSpec (gexp glog : ℚ → ℚ) (tasteShockScale : ℚ)
    (feasible : List Bool) (values : List ℚ) : ℚ :=
  let vbar := maxList (feasibleVals feasible values)
  vbar + tasteShockScale *
    glog (((feasibleVals feasible values).map
      (fun v => gexp ((v - vbar) / tasteShockScale))).sum)

/-- Spec-side aggregate marginal utility: the claim states it is the sum over
feasible choices of `(exp((V_c - vbar) / lambda) / S) * M_c`. -/
def aggMargUtilSpec (gexp : ℚ → ℚ) (tasteShockScale : ℚ)
    (feasible : List Bool) (values margUtils : List ℚ) : ℚ :=
  let vbar := maxList (feasibleVals feasible values)
  let sumS := ((feasibleVals feasible values).map
    (fun v => gexp ((v - vbar) / tasteShockScale))).sum
  ((List.zip feasible (List.zip values margUtils)).filterMap
    (fun t => if t.1 then
      some (gexp ((t.2.1 - vbar) / tasteShockScale) / sumS * t.2.2) else none)).sum

/-- Spec-side lambda-zero fallback required by the specification: at a zero
taste-shock scale the aggregate marginal utility must be the marginal utility
of the choice attaining the maximum value among feasible choices. -/
def argmaxMargUtilSpec (feasible : List Bool) (values margUtils : List ℚ) : ℚ :=
  let pairs := (List.zip feasible (List.zip values margUtils)).filterMap
    (fun t => if t.1 then some t.2 else none)
  match pairs with
  | [] => 0
  | p :: rest => (rest.foldl (fun best q => if best.1 < q.1 then q else best) p).2

/-! ### Lemmas about the aggregation kernel on masked inputs -/

theorem foldl_max_assoc (t : List ℚ) : ∀ a b : ℚ,
    List.foldl max (max a b) t = max a (List.foldl max b t) := by
  induction t with
  | nil => intro a b; rfl
  | cons c t ih =>
    intro a b
    show List.foldl max (max (max a b) c) t = _
    rw [max_assoc, ih a (max b c)]
    rfl

theorem maskFeasible_cons (b : Bool) (f : List Bool) (v : ℚ) (vs : List ℚ) :
    maskFeasible (b :: f) (v :: vs) =
      (if b then some v else none) :: maskFeasible f vs := rfl

theorem feasibleVals_cons (b : Bool) (f : List Bool) (v : ℚ) (vs : List ℚ) :
    feasibleVals (b :: f) (v :: vs) =
      if b then v :: feasibleVals f vs else feasibleVals f vs := by
  cases b <;> simp [feasibleVals]

theorem nansum_cons (o : Option ℚ) (rest : List (Option ℚ)) :
    nansum (o :: rest) = o.getD 0 + nansum rest := by
  simp [nansum]

theorem nanmax_mask (f : List Bool) (vs : List ℚ) :
    nanmax (maskFeasible f vs) =
      match feasibleVals f vs with
      | [] => none
      | a :: t => some (List.foldl max a t) := by
  induction f generalizing vs with
  | nil => simp [maskFeasible, feasibleVals, nanmax]
  | cons b f ih =>
    cases vs with
    | nil => simp [maskFeasible, feasibleVals, nanmax]
    | cons v vs =>
      rw [maskFeasible_cons, feasibleVals_cons]
      rw [show nanmax ((if b then some v else none) :: maskFeasible f vs) =
        maxOpt (if b then some v else none) (nanmax (maskFeasible f vs)) from rfl]
      rw [ih vs]
      cases b with
      | false => simp [maxOpt]
      | true =>
        cases hfv : feasibleVals f vs with
        | nil => simp [maxOpt]
        | cons a t =>
          show some (max v (List.foldl max a t)) = some (List.foldl max (max v a) t)
          rw [foldl_max_assoc]

theorem subOpt_some (v? : Option ℚ) (mx : ℚ) :
    subOpt v? (some mx) = v?.map (fun v => v - mx) := by
  cases v? <;> rfl

theorem mask_map (f : List Bool) (vs : List ℚ) (g : ℚ → ℚ) :
    (maskFeasible f vs).map (fun o => o.map g) = maskFeasible f (vs.map g) := by
  induction f generalizing vs with
  | nil => simp [maskFeasible]
  | cons b f ih =>
    cases vs with
    | nil => simp [maskFeasible]
    | cons v vs =>
      rw [List.map_cons, maskFeasible_cons, maskFeasible_cons, List.map_cons, ih vs]
      cases b <;> rfl

theorem nansum_mask (f : List Bool) (vs : List ℚ) :
    nansum (maskFeasible f vs) = (feasibleVals f vs).sum := by
  induction f generalizing vs with
  | nil => simp [maskFeasible, feasibleVals, nansum]
  | cons b f ih =>
    cases vs with
    | nil => simp [maskFeasible, feasibleVals, nansum]
    | cons v vs =>
      rw [maskFeasible_cons, feasibleVals_cons, nansum_cons, ih vs]
      cases b <;> simp

theorem feasibleVals_map (f : List Bool) (vs : List ℚ) (g : ℚ → ℚ) :
    feasibleVals f (vs.map g) = (feasibleVals f vs).map g := by
  induction f generalizing vs with
  | nil => simp [feasibleVals]
  | cons b f ih =>
    cases vs with
    | nil => simp [feasibleVals]
    | cons v vs =>
      rw [List.map_cons, feasibleVals_cons, feasibleVals_cons]
      cases b
      · simpa using ih vs
      · simpa using ih vs

theorem nansum_weighted (f : List Bool) (vs ms : List ℚ) (h : ℚ → ℚ) :
    nansum (List.zipWith mulOpt (maskFeasible f (vs.map h)) (maskFeasible f ms)) =
      ((List.zip f (List.zip vs ms)).filterMap
        (fun t => if t.1 then some (h t.2.1 * t.2.2) else none)).sum := by
  induction f generalizing vs ms with
  | nil => simp [maskFeasible, nansum]
  | cons b f ih =>
    cases vs with
    | nil => simp [maskFeasible, nansum]
    | cons v vs =>
      cases ms with
      | nil => simp [maskFeasible, nansum]
      | cons m ms =>
        rw [List.map_cons, maskFeasible_cons, maskFeasible_cons,
          List.zipWith_cons_cons, nansum_cons, ih vs ms,
          List.zip_cons_cons, List.zip_cons_cons, List.filterMap_cons]
        cases b <;> simp [mulOpt]

/-! ### Claim theorems -/

/-- C1: for every state-choice (child marginal utilities, child expected
maxima, transition probabilities) and every savings-grid point, the EGM step
computes consumption as `inverse_marginal_utility(beta * (1 + r) * mu)` where
`mu` is the transition-probability-weighted sum of the post-decision marginal
utilities, the expected value as the transition-probability-weighted sum of
the child expected maxima, and the endogenous wealth point as
savings + consumption. -/
theorem claim_C1 (margUtils emax transitionProbs : List ℚ) (savingsPoint : ℚ)
    (invMargUtil : ℚ → ℚ) (computeValue : ℚ → ℚ → ℚ) (beta interestRate : ℚ) :
    computeOptimalPolicyAndValue margUtils emax savingsPoint transitionProbs
        invMargUtil computeValue beta interestRate =
      (savingsPoint + eulerPolicySpec margUtils transitionProbs invMargUtil beta interestRate,
       eulerPolicySpec margUtils transitionProbs invMargUtil beta interestRate,
       computeValue
         (eulerPolicySpec margUtils transitionProbs invMargUtil beta interestRate)
         (dot transitionProbs emax),
       dot transitionProbs emax) := by
  simp only [computeOptimalPolicyAndValue, solveEulerEquation, eulerPolicySpec]
  rw [show dot transitionProbs margUtils * (1 + interestRate) * beta
    = beta * (1 + interestRate) * dot transitionProbs margUtils from by ring]

/-- C7 counterexample: with a single income-shock draw (n = 1) the index
`int(shape + 1 / 2)` equals `(n + 1) // 2`, so the claim's assertion that the
computed index is never the middle draw `(n + 1) // 2` fails at n = 1. -/
theorem claim_C7_counterexample : middleOfDraws 1 = ((1 + 1) / 2 : ℕ) := by
  unfold middleOfDraws
  rw [show ((1 + 1) / 2 : ℕ) = (1 : ℤ) from rfl]
  rw [Int.floor_eq_iff]
  norm_num

/-- C7 (amended): for every number of draws n ≥ 1 the index
`int(shape[2] + 1 / 2)` evaluates to exactly n, which lies outside the valid
draw range 0..n-1; for n ≥ 2 it moreover differs from the middle draw
`(n + 1) // 2`. -/
theorem claim_C7 (n : ℕ) (hn : 1 ≤ n) :
    middleOfDraws n = n ∧ ¬ middleOfDraws n < n ∧
      (2 ≤ n → middleOfDraws n ≠ ((n + 1) / 2 : ℕ)) := by
  have hfloor : middleOfDraws n = n := by
    unfold middleOfDraws
    rw [Int.floor_eq_iff]
    constructor
    · norm_num
    · push_cast
      norm_num
  refine ⟨hfloor, by rw [hfloor]; omega, fun h2 heq => ?_⟩
  rw [hfloor] at heq
  have : n = (n + 1) / 2 := by exact_mod_cast heq
  omega

theorem claim_C7_witness :
    middleOfDraws 3 = 3 ∧ ¬ middleOfDraws 3 < 3 ∧
      (2 ≤ 3 → middleOfDraws 3 ≠ ((3 + 1) / 2 : ℕ)) :=
  claim_C7 3 (by decide)

/-- C9: on every model with more than two periods the batching dispatch calls
`determine_optimal_batch_size`, whose unconditional `breakpoint()` statement
is executed: a suspension point is reached on every such run, contradicting
the specification's claim that the numerical core has no suspension points. -/
theorem claim_C9 (stateChoiceSpace : List (List ℤ)) (nPeriods : ℕ)
    (mapStateChoiceToChildStates : List (List ℤ)) (hn : 2 < nPeriods) :
    BatchEffect.breakpointHit ∈
      createBatchesEffects stateChoiceSpace nPeriods mapStateChoiceToChildStates := by
  unfold createBatchesEffects
  rw [if_neg (by omega)]
  simp [determineOptimalBatchSize]

theorem claim_C9_witness :
    BatchEffect.breakpointHit ∈ createBatchesEffects [[0], [1], [2]] 3 [[0], [0], [0]] :=
  claim_C9 [[0], [1], [2]] 3 [[0], [0], [0]] (by decide)

theorem createStateSpaceLoop_error (valid : List ℤ → Bool) (proxy : List ℤ → List ℤ) :
    ∀ l : List (List ℤ), (∃ s ∈ l, valid s = true ∧ proxy s ≠ s) →
      createStateSpaceLoop valid proxy l = Except.error () := by
  intro l
  induction l with
  | nil => rintro ⟨s, hs, _⟩; simp at hs
  | cons a t ih =>
    rintro ⟨s, hs, hvalid, hproxy⟩
    rcases List.mem_cons.mp hs with heq | hmem
    · subst heq
      simp only [createStateSpaceLoop]
      rw [if_pos hproxy, if_pos hvalid]
    · have hrec := ih ⟨s, hmem, hvalid, hproxy⟩
      simp only [createStateSpaceLoop]
      split_ifs
      · rfl
      · rw [hrec]
      · rw [hrec]
      · exact hrec

theorem createStateSpaceLoop_ok (valid : List ℤ → Bool) (proxy : List ℤ → List ℤ) :
    ∀ l : List (List ℤ), (∀ s ∈ l, ¬ (valid s = true ∧ proxy s ≠ s)) →
      ∃ out, createStateSpaceLoop valid proxy l = Except.ok out := by
  intro l
  induction l with
  | nil => exact fun _ => ⟨([], [], []), rfl⟩
  | cons a t ih =>
    intro h
    obtain ⟨⟨sp, pfrom, pto⟩, hout⟩ := ih (fun s hs => h s (List.mem_cons_of_mem _ hs))
    have hhead := h a (List.mem_cons_self a t)
    simp only [createStateSpaceLoop]
    split_ifs with h1 h2 h3
    · exact absurd ⟨h2, h1⟩ hhead
    · exact ⟨(sp, a :: pfrom, proxy a :: pto), by rw [hout]⟩
    · exact ⟨(a :: sp, pfrom, pto), by rw [hout]⟩
    · exact ⟨(sp, pfrom, pto), hout⟩

/-- C8: during state-space construction, if some enumerated state is declared
valid by the sparsity condition while the proxy map sends it to a different
state, construction aborts with the fatal configuration error; if no valid
state is proxied (and every proxy target is valid), construction completes
without that error. -/
theorem claim_C8 (nPeriods nEndogStates nChoices : ℕ) (endogStateOf : ℕ → List ℤ)
    (exogStateSpace : List (List ℤ)) (valid : List ℤ → Bool)
    (proxy : List ℤ → List ℤ) :
    ((∃ s ∈ enumerateStates nPeriods nEndogStates nChoices endogStateOf exogStateSpace,
        valid s = true ∧ proxy s ≠ s) →
      createStateSpace nPeriods nEndogStates nChoices endogStateOf exogStateSpace
        valid proxy = Except.error ()) ∧
    ((∀ s ∈ enumerateStates nPeriods nEndogStates nChoices endogStateOf exogStateSpace,
        ¬ (valid s = true ∧ proxy s ≠ s)) →
     (∀ s ∈ enumerateStates nPeriods nEndogStates nChoices endogStateOf exogStateSpace,
        proxy s ≠ s → valid (proxy s) = true) →
      ∃ out, createStateSpace nPeriods nEndogStates nChoices endogStateOf exogStateSpace
        valid proxy = Except.ok out) :=
  ⟨fun h => createStateSpaceLoop_error valid proxy _ h,
   fun h _ => createStateSpaceLoop_ok valid proxy _ h⟩

theorem claim_C8_witness :
    createStateSpace 1 1 1 (fun _ => []) [[0]] (fun _ => true)
        (fun _ => [9, 9, 9]) = Except.error () ∧
    ∃ out, createStateSpace 1 1 1 (fun _ => []) [[0]] (fun _ => true)
        (fun s => s) = Except.ok out :=
  ⟨(claim_C8 1 1 1 (fun _ => []) [[0]] (fun _ => true) (fun _ => [9, 9, 9])).1
      ⟨[0, 0, 0], by decide, by decide, by decide⟩,
   (claim_C8 1 1 1 (fun _ => []) [[0]] (fun _ => true) (fun s => s)).2
      (by decide) (by decide)⟩

/-- C3: the FUES wrapper extends the grid to the left if and only if the
minimum of the raw endogenous grid lies strictly below its first element; the
added block is `linspace(min, x0, G/10)` without its last point, its values
are the credit-constrained formula `utility(new_x) + beta * expected_value_zero`
and its policy is `new_x`; afterwards the zero-savings point `(0, EV0, 0)` is
prepended, and the scan runs on the stable-sorted triples. -/
theorem claim_C3 (endog policy value : List ℚ) (ev0 : ℚ) (choice : ℤ)
    (computeUtility : ℚ → ℤ → ℚ) (beta : ℚ) :
    (npMin endog < endog.headD 0 →
      fueWrapperPrescan endog policy value ev0 choice
          (calcValueConstrained computeUtility beta) =
        (0 :: ((linspace (npMin endog) (endog.headD 0) (endog.length / 10)).dropLast
            ++ endog),
         0 :: ((linspace (npMin endog) (endog.headD 0) (endog.length / 10)).dropLast
            ++ policy),
         ev0 :: (((linspace (npMin endog) (endog.headD 0) (endog.length / 10)).dropLast).map
            (creditConstrainedValueSpec computeUtility beta ev0 choice) ++ value))) ∧
    (¬ npMin endog < endog.headD 0 →
      fueWrapperPrescan endog policy value ev0 choice
          (calcValueConstrained computeUtility beta) =
        (0 :: endog, 0 :: policy, ev0 :: value)) ∧
    (fastUpperEnvelopeWrapper endog policy value ev0 choice
        (calcValueConstrained computeUtility beta) =
      fastUpperEnvelope
        (fueWrapperPrescan endog policy value ev0 choice
          (calcValueConstrained computeUtility beta)).1
        (fueWrapperPrescan endog policy value ev0 choice
          (calcValueConstrained computeUtility beta)).2.2
        (fueWrapperPrescan endog policy value ev0 choice
          (calcValueConstrained computeUtility beta)).2.1) ∧
    (∀ e v p : List ℚ, fastUpperEnvelope e v p =
      scanValueFunction
        ((stableSortByX (List.zip e (List.zip v p))).map (fun t => t.1))
        ((stableSortByX (List.zip e (List.zip v p))).map (fun t => t.2.1))
        ((stableSortByX (List.zip e (List.zip v p))).map (fun t => t.2.2)) 2 10) := by
  refine ⟨fun h => ?_, fun h => ?_, rfl, fun e v p => rfl⟩
  · simp only [fueWrapperPrescan, if_pos h, augmentGrids,
      calcValueConstrained, creditConstrainedValueSpec]
    rfl
  · simp only [fueWrapperPrescan, if_neg h]

theorem claim_C3_witness :
    npMin [2, 1, 3] < ([2, 1, 3] : List ℚ).headD 0 ∧
    fueWrapperPrescan [2, 1, 3] [4, 4, 4] [5, 5, 5] 7 0
        (calcValueConstrained (fun w _ => w) (1 / 2)) =
      (0 :: ((linspace (npMin [2, 1, 3]) (([2, 1, 3] : List ℚ).headD 0)
          (([2, 1, 3] : List ℚ).length / 10)).dropLast ++ [2, 1, 3]),
       0 :: ((linspace (npMin [2, 1, 3]) (([2, 1, 3] : List ℚ).headD 0)
          (([2, 1, 3] : List ℚ).length / 10)).dropLast ++ [4, 4, 4]),
       7 :: (((linspace (npMin [2, 1, 3]) (([2, 1, 3] : List ℚ).headD 0)
          (([2, 1, 3] : List ℚ).length / 10)).dropLast).map
          (creditConstrainedValueSpec (fun w _ => w) (1 / 2) 7 0) ++ [5, 5, 5])) := by
  have hmin : npMin [2, 1, 3] < ([2, 1, 3] : List ℚ).headD 0 := by
    norm_num [npMin, min_def]
  exact ⟨hmin,
    (claim_C3 [2, 1, 3] [4, 4, 4] [5, 5, 5] 7 0 (fun w _ => w) (1 / 2)).1 hmin⟩

/-- C4: for a parent state with at least one feasible choice and a positive
taste-shock scale, the aggregation kernel returns the expected maximum as
`vbar + lambda * log(S)` with `vbar` the maximum of the feasible choice
values and `S` the sum over feasible choices of `exp((V_c - vbar)/lambda)`
(infeasible choices contributing zero), and the aggregate marginal utility as
the choice-probability-weighted sum `sum_c (exp((V_c - vbar)/lambda)/S) * M_c`
over feasible choices. -/
theorem claim_C4 (gexp glog : ℚ → ℚ) (tasteShockScale : ℚ)
    (feasible : List Bool) (values margUtils : List ℚ)
    (hlam : 0 < tasteShockScale)
    (hne : feasibleVals feasible values ≠ []) :
    aggregateMargUtilsAndExpValues gexp glog tasteShockScale
        (maskFeasible feasible values) (maskFeasible feasible margUtils) =
      (some (logsumSpec gexp glog tasteShockScale feasible values),
       aggMargUtilSpec gexp tasteShockScale feasible values margUtils) := by
  cases hfv : feasibleVals feasible values with
  | nil => exact absurd hfv hne
  | cons a t =>
    have hmax : nanmax (maskFeasible feasible values) = some (List.foldl max a t) := by
      rw [nanmax_mask, hfv]
    have hmaxList : maxList (feasibleVals feasible values) = List.foldl max a t := by
      rw [hfv]
      rfl
    simp only [aggregateMargUtilsAndExpValues, logsumSpec, aggMargUtilSpec]
    rw [hmax, hmaxList]
    simp only [subOpt_some, mask_map, List.map_map, Option.map_some]
    rw [nansum_mask]
    rw [feasibleVals_map]
    simp only [Function.comp_def, Option.map_some]
    rw [nansum_weighted feasible values margUtils
      (fun v => gexp ((v - List.foldl max a t) / tasteShockScale) /
        (List.map (fun v => gexp ((v - List.foldl max a t) / tasteShockScale))
          (feasibleVals feasible values)).sum)]
    rfl

theorem claim_C4_witness :
    aggregateMargUtilsAndExpValues (fun x => x) (fun x => x) 1
        (maskFeasible [true, false] [2, 9]) (maskFeasible [true, false] [3, 4]) =
      (some (logsumSpec (fun x => x) (fun x => x) 1 [true, false] [2, 9]),
       aggMargUtilSpec (fun x => x) 1 [true, false] [2, 9] [3, 4]) :=
  claim_C4 (fun x => x) (fun x => x) 1 [true, false] [2, 9] [3, 4]
    (by norm_num) (by simp [feasibleVals])

/-- C5: the aggregation kernel has no max/argmax fallback for a zero
taste-shock scale: at lambda = 0 it still runs the log-sum path, dividing the
rescaled values by zero; on the concrete input with feasible values (1, 0) and
marginal utilities (5, 7) the kernel (in the exact-arithmetic model, where
x/0 = 0 and hence every rescaled exponential is gexp 0 = 1) returns the
uniform average 6 instead of the required argmax fallback value 5. -/
theorem claim_C5 (gexp glog : ℚ → ℚ) (hexp : gexp 0 = 1) :
    (aggregateMargUtilsAndExpValues gexp glog 0
        (maskFeasible [true, true] [1, 0]) (maskFeasible [true, true] [5, 7])).2 = 6 ∧
    argmaxMargUtilSpec [true, true] [1, 0] [5, 7] = 5 ∧
    (aggregateMargUtilsAndExpValues gexp glog 0
        (maskFeasible [true, true] [1, 0]) (maskFeasible [true, true] [5, 7])).2 ≠
      argmaxMargUtilSpec [true, true] [1, 0] [5, 7] := by
  have h1 : (aggregateMargUtilsAndExpValues gexp glog 0
      (maskFeasible [true, true] [1, 0]) (maskFeasible [true, true] [5, 7])).2 = 6 := by
    norm_num [aggregateMargUtilsAndExpValues, maskFeasible, nanmax, maxOpt, nansum,
      mulOpt, subOpt, max_def, hexp]
  have h2 : argmaxMargUtilSpec [true, true] [1, 0] [5, 7] = 5 := by
    simp only [argmaxMargUtilSpec, List.zip_cons_cons, List.zip_nil_right,
      List.filterMap_cons, List.filterMap_nil, if_pos, List.foldl_cons, List.foldl_nil]
    norm_num
  refine ⟨h1, h2, ?_⟩
  rw [h1, h2]
  norm_num

theorem claim_C5_witness :
    (aggregateMargUtilsAndExpValues (fun _ => 1) (fun x => x) 0
        (maskFeasible [true, true] [1, 0]) (maskFeasible [true, true] [5, 7])).2 = 6 ∧
    argmaxMargUtilSpec [true, true] [1, 0] [5, 7] = 5 ∧
    (aggregateMargUtilsAndExpValues (fun _ => 1) (fun x => x) 0
        (maskFeasible [true, true] [1, 0]) (maskFeasible [true, true] [5, 7])).2 ≠
      argmaxMargUtilSpec [true, true] [1, 0] [5, 7] :=
  claim_C5 (fun _ => 1) (fun x => x) rfl

/-- C2 (amended): the invalid entries of the fixed-width refined arrays are
always a contiguous NaN suffix (valid entries are exactly the positions below
a common cut).  The strict increase of the grid and the non-negativity of the
policy on the valid entries do not hold for every input; they hold whenever
the input grid is strictly increasing, the input policy non-negative and the
scan accepts every interior candidate, in which case the output equals the
input. -/
theorem claim_C2 (endog value policy : List ℚ) (jumpThresh : ℚ) (nScan : ℕ)
    (hv : value.length = endog.length) (hp : policy.length = endog.length) :
    ((scanValueFunction endog value policy jumpThresh nScan).xRef.length = endog.length ∧
     (scanValueFunction endog value policy jumpThresh nScan).vRef.length = endog.length ∧
     (scanValueFunction endog value policy jumpThresh nScan).pRef.length = endog.length ∧
     ∃ L, ∀ m, m < endog.length →
       ((((scanValueFunction endog value policy jumpThresh nScan).xRef.getD m none).isSome
          ↔ m < L) ∧
        (((scanValueFunction endog value policy jumpThresh nScan).vRef.getD m none).isSome
          ↔ m < L) ∧
        (((scanValueFunction endog value policy jumpThresh nScan).pRef.getD m none).isSome
          ↔ m < L))) ∧
    (3 ≤ endog.length →
     List.Pairwise (fun a b : ℚ => a < b) endog →
     (∀ q ∈ policy, 0 ≤ q) →
     (∀ b ∈ (scanValueFunction endog value policy jumpThresh nScan).trace,
        b = Branch.accept) →
       refinedValues (scanValueFunction endog value policy jumpThresh nScan).xRef = endog ∧
       refinedValues (scanValueFunction endog value policy jumpThresh nScan).vRef = value ∧
       refinedValues (scanValueFunction endog value policy jumpThresh nScan).pRef = policy ∧
       List.Pairwise (fun a b : ℚ => a < b)
         (refinedValues (scanValueFunction endog value policy jumpThresh nScan).xRef) ∧
       ∀ q ∈ refinedValues (scanValueFunction endog value policy jumpThresh nScan).pRef,
         0 ≤ q) := by
  constructor
  · obtain ⟨h2, ⟨hvl, hvv⟩, ⟨hpl, hpv⟩, ⟨hxl, hxv⟩⟩ :=
      scanValueFunction_contiguous endog value policy jumpThresh nScan hv hp
    exact ⟨hxl, hvl, hpl,
      ⟨(scanValueFunction endog value policy jumpThresh nScan).idxRefined,
        fun m hm => ⟨hxv m hm, hvv m hm, hpv m hm⟩⟩⟩
  · intro hn hsorted hpol htr
    obtain ⟨hvr, hpr, hxr, _⟩ :=
      scanValueFunction_acceptOnly endog value policy jumpThresh nScan hn hv hp htr
    rw [hvr, hpr, hxr, refinedValues_map_some, refinedValues_map_some,
      refinedValues_map_some]
    exact ⟨rfl, rfl, rfl, hsorted, hpol⟩

/-- C2 counterexample: on the input grid (0, 0, 1) with policies (-1, -1, -1)
the scan returns the input unchanged, so the valid entries of the refined
grid are not strictly increasing and the refined policy is negative — the
claimed invariant fails for this input triple. -/
theorem claim_C2_counterexample :
    ¬ (List.Pairwise (fun a b : ℚ => a < b)
        (refinedValues (scanValueFunction [0, 0, 1] [0, 0, 1] [-1, -1, -1] 2 10).xRef) ∧
       ∀ q ∈ refinedValues (scanValueFunction [0, 0, 1] [0, 0, 1] [-1, -1, -1] 2 10).pRef,
         0 ≤ q) := by
  have hx : refinedValues (scanValueFunction [0, 0, 1] [0, 0, 1] [-1, -1, -1] 2 10).xRef
      = [0, 0, 1] := rfl
  rintro ⟨h1, -⟩
  rw [hx] at h1
  exact absurd ((List.pairwise_cons.mp h1).1 0 (by simp)) (lt_irrefl 0)

theorem claim_C2_witness :
    refinedValues (scanValueFunction [0, 1, 2] [0, 1, 2] [0, 0, 0] 2 10).xRef = [0, 1, 2] ∧
    List.Pairwise (fun a b : ℚ => a < b)
      (refinedValues (scanValueFunction [0, 1, 2] [0, 1, 2] [0, 0, 0] 2 10).xRef) ∧
    ∀ q ∈ refinedValues (scanValueFunction [0, 1, 2] [0, 1, 2] [0, 0, 0] 2 10).pRef,
      0 ≤ q := by
  obtain ⟨-, h2⟩ := claim_C2 [0, 1, 2] [0, 1, 2] [0, 0, 0] 2 10 rfl rfl
  obtain ⟨hx, -, -, hinc, hnn⟩ := h2 (by decide) (by decide) (by decide) (by decide)
  exact ⟨hx, hinc, hnn⟩

/-- C10 (amended): the output cursor starts at 2 and each loop iteration
advances it by at most one when no kink-insertion branch fires, so in a run
whose trace contains no kink branch every scalar write (including the final
unconditional write of the last input point) lands at an index strictly below
the array length.  The bound fails for general runs: a kink branch can push
the cursor past the end (see the counterexample). -/
theorem claim_C10 (endog value policy : List ℚ) (jumpThresh : ℚ) (nScan : ℕ)
    (hn : 3 ≤ endog.length)
    (htr : ∀ b ∈ (scanValueFunction endog value policy jumpThresh nScan).trace,
      b ≠ Branch.kinkA ∧ b ≠ Branch.kinkB) :
    ∀ w ∈ (scanValueFunction endog value policy jumpThresh nScan).writes,
      w < endog.length :=
  scanValueFunction_writes_noKink endog value policy jumpThresh nScan hn htr

theorem claim_C10_witness :
    ((scanValueFunction [0, 1, 2] [0, 1, 2] [0, 0, 0] 2 10).writes).Forall
      (fun w => w < ([0, 1, 2] : List ℚ).length) :=
  List.forall_iff_forall_mem.mpr
    (claim_C10 [0, 1, 2] [0, 1, 2] [0, 0, 0] 2 10 (by decide) (by decide))

theorem scanWritesKinkEval :
    (scanValueFunction [0, 1, 3/2, 2] [0, 1, 5/4, 3/2] [0, 1, 1/4, 2] 2 10).writes
      = [2, 3, 4, 5] := by
  norm_num [scanValueFunction, scanLoop, scanStep, scanInit, scanFinal, forwardScan,
    backwardScan, fwdStep, bwdStep, emit, advanceJK, overwritePrev, ScanInput.x,
    ScanInput.v, ScanInput.p, ScanInput.e, nanLtR, nanLtL, linearIntersection,
    evaluatePointOnLine, initRefined, scanEps, absQ, List.range', List.foldl,
    List.getD, List.enum, List.enumFrom, List.replicate]

/-- C10 counterexample: on the length-4 input below the first loop iteration
takes the kink-insertion branch, which emits three entries and moves the
cursor past the array end; the writes at indices 4 and 5 fall outside arrays
of length 4 (in numpy these assignments raise IndexError). -/
theorem claim_C10_counterexample :
    ¬ (∀ w ∈ (scanValueFunction [0, 1, 3/2, 2] [0, 1, 5/4, 3/2] [0, 1, 1/4, 2] 2 10).writes,
        w < ([0, 1, 3/2, 2] : List ℚ).length) := by
  intro h
  rw [scanWritesKinkEval] at h
  have h5 := h 5 (by simp)
  simp at h5

/-- C6 (amended): FUES is not idempotent for every raw input (see the
counterexample); it is idempotent on inputs whose grid is already
non-decreasing and whose scan accepts every interior candidate: the first
application then returns exactly the input, and re-applying
`fast_upper_envelope` to the valid entries of that output reproduces the same
refined state. -/
theorem claim_C6 (endog value policy : List ℚ)
    (hn : 3 ≤ endog.length)
    (hv : value.length = endog.length) (hp : policy.length = endog.length)
    (hsorted : List.Pairwise (fun a b : ℚ => a ≤ b) endog)
    (htr : ∀ b ∈ (fastUpperEnvelope endog value policy).trace, b = Branch.accept) :
    refinedValues (fastUpperEnvelope endog value policy).xRef = endog ∧
    refinedValues (fastUpperEnvelope endog value policy).vRef = value ∧
    refinedValues (fastUpperEnvelope endog value policy).pRef = policy ∧
    fastUpperEnvelope
      (refinedValues (fastUpperEnvelope endog value policy).xRef)
      (refinedValues (fastUpperEnvelope endog value policy).vRef)
      (refinedValues (fastUpperEnvelope endog value policy).pRef) =
      fastUpperEnvelope endog value policy :=
  fastUpperEnvelope_idem_of_acceptOnly endog value policy hn hv hp hsorted htr

theorem claim_C6_witness :
    refinedValues (fastUpperEnvelope [0, 1, 2] [0, 1, 2] [0, 0, 0]).xRef = [0, 1, 2] ∧
    refinedValues (fastUpperEnvelope [0, 1, 2] [0, 1, 2] [0, 0, 0]).vRef = [0, 1, 2] ∧
    refinedValues (fastUpperEnvelope [0, 1, 2] [0, 1, 2] [0, 0, 0]).pRef = [0, 0, 0] ∧
    fastUpperEnvelope
      (refinedValues (fastUpperEnvelope [0, 1, 2] [0, 1, 2] [0, 0, 0]).xRef)
      (refinedValues (fastUpperEnvelope [0, 1, 2] [0, 1, 2] [0, 0, 0]).vRef)
      (refinedValues (fastUpperEnvelope [0, 1, 2] [0, 1, 2] [0, 0, 0]).pRef) =
      fastUpperEnvelope [0, 1, 2] [0, 1, 2] [0, 0, 0] :=
  claim_C6 [0, 1, 2] [0, 1, 2] [0, 0, 0] (by decide) rfl rfl (by decide) (by decide)

set_option maxHeartbeats 4000000 in
theorem fueKinkEvalFirst :
    (fastUpperEnvelope [0, 1, 3/2, 2, 5/2, 3] [0, 1, 5/4, 5/4, 1, 3]
        [0, 1, 1/4, 2, 5/2, 3]).xRef
      = [some 0, some 1, some (9/7), some (9/7), some (3/2), some 3] ∧
    (fastUpperEnvelope [0, 1, 3/2, 2, 5/2, 3] [0, 1, 5/4, 5/4, 1, 3]
        [0, 1, 1/4, 2, 5/2, 3]).vRef
      = [some 0, some 1, some (15/14), some (15/14), some (5/4), some 3] ∧
    (fastUpperEnvelope [0, 1, 3/2, 2, 5/2, 3] [0, 1, 5/4, 5/4, 1, 3]
        [0, 1, 1/4, 2, 5/2, 3]).pRef
      = [some 0, some 1, some (9/7), some (3/14), some (1/4), some 3] := by
  norm_num [fastUpperEnvelope, stableSortByX, List.insertionSort, List.orderedInsert,
    scanValueFunction, scanLoop, scanStep, scanInit, scanFinal, forwardScan,
    backwardScan, fwdStep, bwdStep, emit, advanceJK, overwritePrev, ScanInput.x,
    ScanInput.v, ScanInput.p, ScanInput.e, nanLtR, nanLtL, linearIntersection,
    evaluatePointOnLine, initRefined, scanEps, absQ, List.range', List.foldl,
    List.getD, List.enum, List.enumFrom, List.replicate]

set_option maxHeartbeats 4000000 in
theorem fueKinkEvalSecond :
    (fastUpperEnvelope [0, 1, 9/7, 9/7, 3/2, 3] [0, 1, 15/14, 15/14, 5/4, 3]
        [0, 1, 9/7, 3/14, 1/4, 3]).xRef
      = [some 0, some 1, some (9/7), some 3, none, none] := by
  norm_num [fastUpperEnvelope, stableSortByX, List.insertionSort, List.orderedInsert,
    scanValueFunction, scanLoop, scanStep, scanInit, scanFinal, forwardScan,
    backwardScan, fwdStep, bwdStep, emit, advanceJK, overwritePrev, ScanInput.x,
    ScanInput.v, ScanInput.p, ScanInput.e, nanLtR, nanLtL, linearIntersection,
    evaluatePointOnLine, initRefined, scanEps, absQ, List.range', List.foldl,
    List.getD, List.enum, List.enumFrom, List.replicate]

/-- C6 counterexample: on the raw input below the first FUES pass takes a
kink branch, emitting a duplicated intersection point and filling all six
output entries; applying FUES to that output discards points (the duplicated
intersection copy makes the jump detector fire and the rescan drops the
points after it), so the second application does not reproduce the first
output even up to NaN padding. -/
theorem claim_C6_counterexample :
    (fastUpperEnvelope
        (refinedValues (fastUpperEnvelope [0, 1, 3/2, 2, 5/2, 3]
          [0, 1, 5/4, 5/4, 1, 3] [0, 1, 1/4, 2, 5/2, 3]).xRef)
        (refinedValues (fastUpperEnvelope [0, 1, 3/2, 2, 5/2, 3]
          [0, 1, 5/4, 5/4, 1, 3] [0, 1, 1/4, 2, 5/2, 3]).vRef)
        (refinedValues (fastUpperEnvelope [0, 1, 3/2, 2, 5/2, 3]
          [0, 1, 5/4, 5/4, 1, 3] [0, 1, 1/4, 2, 5/2, 3]).pRef)).xRef ≠
      (fastUpperEnvelope [0, 1, 3/2, 2, 5/2, 3]
        [0, 1, 5/4, 5/4, 1, 3] [0, 1, 1/4, 2, 5/2, 3]).xRef := by
  rw [fueKinkEvalFirst.1, fueKinkEvalFirst.2.1, fueKinkEvalFirst.2.2]
  rw [show refinedValues [some (0:ℚ), some 1, some (9/7), some (9/7), some (3/2), some 3]
    = [0, 1, 9/7, 9/7, 3/2, 3] from rfl]
  rw [show refinedValues [some (0:ℚ), some 1, some (15/14), some (15/14), some (5/4), some 3]
    = [0, 1, 15/14, 15/14, 5/4, 3] from rfl]
  rw [show refinedValues [some (0:ℚ), some 1, some (9/7), some (3/14), some (1/4), some 3]
    = [0, 1, 9/7, 3/14, 1/4, 3] from rfl]
  rw [fueKinkEvalSecond]
  intro h
  simp only [List.cons.injEq] at h
  exact Option.noConfusion h.2.2.2.2.1

end DCEGM